import Mathlib

/-!
Verification development for chumby-utils, chumby_card_reader_daemon.c.

The daemon has four parts with interesting logic, each embedded below:

* `check_card_presence` — the presence sampler (lines 58-77);
* `removeEntry` / `remove_card_reader_quirk` — the comma-separated
  quirk-string surgery (lines 129-199);
* `settle` / `settleTimed` — the debounce loop of
  `wait_for_card_presence_change` (lines 79-127), both as a raw
  wait-outcome machine and under a timed event scheduler;
* `run` / `runWrites` / `runCommits` — the startup reconciliation and the
  forever loop of `main` (lines 220-266).
-/

namespace CardReaderDaemon

/-! ## The quirk-string editor (remove_card_reader_quirk, lines 129-199)

The C function reads the quirks file into a freshly malloc'd 1024-byte
buffer, NUL-terminates it (stripping one trailing newline if present),
finds the quirk with `strstr`, and closes the gap with a `memmove`.

A crucial detail of the source is the guard on line 166:

  if (pos > 0 && *(pos - 1) == ',')

`pos` is a `char *`, so `pos > 0` compares the POINTER against zero and is
always true for a successful `strstr`; it does not test whether the match
is at the start of the buffer.  When the match is at offset 0, the code
therefore reads the heap byte immediately before the malloc'd buffer.  The
embedding makes that byte explicit: the buffer is modelled as
`junk :: text ++ [NUL]` where `junk` is the unknowable byte at
`quirks[-1]`, and all C offsets are shifted by one so that `quirks[-1]`
is index 0.  The model assumes the file content fits in the buffer
(at most 1023 bytes) and contains no NUL byte. -/

/-- NUL terminator byte of a C string. -/
def NUL : Char := '\x00'

/-- The quirk entry the daemon removes, CARD_READER_QUIRK = "058f:6366:i". -/
def CARD_READER_QUIRK : List Char :=
  ['0', '5', '8', 'f', ':', '6', '3', '6', '6', ':', 'i']

/-- Functional model of C `memmove(b + dest, b + src, len)` on a buffer `b`:
bytes `[dest, dest+len)` receive the old bytes `[src, src+len)`, everything
else is unchanged (memmove copies as if through a temporary buffer). -/
def memmove (b : List Char) (dest src len : Nat) : List Char :=
  b.take dest ++ (b.drop src).take len ++ b.drop (dest + len)

/-- Model of C `strstr`: index of the first occurrence of `pat` in `t`,
`none` when `pat` is not a substring (`strstr` returns the haystack itself
for an empty needle, hence `some 0` when `pat = []`). -/
def strstr? : List Char → List Char → Option Nat
  | t, pat =>
    if pat.isPrefixOf t then some 0
    else
      match t with
      | [] => none
      | _ :: cs => (strstr? cs pat).map (· + 1)

/-- The character sequence a C string function (strlen / fwrite of strlen
bytes) sees in a buffer: everything up to the first NUL. -/
def cstring (l : List Char) : List Char := l.takeWhile (fun c => c ≠ NUL)

/-- Model of the editing core of `remove_card_reader_quirk`
(lines 162-194), generic in the entry as the spec's
`removeEntry(text, entry)`.  `t` is the NUL-stripped file content,
`junk` the heap byte at `quirks[-1]` (read out of bounds by the always-true
`pos > 0` guard when the match is at offset 0).  Buffer indices are the C
offsets plus one.  Returns the content that is written back (the buffer's
C string after the memmove); when the entry is not found the buffer is
untouched and `t` is returned. -/
def removeEntryAt (junk : Char) (t entry : List Char) (i : Nat) : List Char :=
  let buf := junk :: (t ++ [NUL])
  let bytes := t.length + 1
  let e := entry.length
  let comma_before := buf.getD (1 + i - 1) NUL = ','
  let comma_after := buf.getD (1 + i + e) NUL = ','
  let move_dest := 1 + i
  let move_src := 1 + i + e
  let move_len := bytes - i - e
  let moved :=
    if comma_before then memmove buf (move_dest - 1) move_src move_len
    else if comma_after then memmove buf move_dest (move_src + 1) (move_len - 1)
    else memmove buf move_dest move_src move_len
  cstring (moved.drop 1)

/-- Dispatch on the `strstr` result (the `if (pos)` on line 163): not found
leaves the buffer as it was, found performs the edit at the match offset. -/
def removeEntry (junk : Char) (t entry : List Char) : List Char :=
  match strstr? t entry with
  | none => t
  | some i => removeEntryAt junk t entry i

/-- NUL-termination step of lines 154-159: a single trailing newline is
overwritten by the terminator, i.e. dropped from the content. -/
def stripNL (raw : List Char) : List Char :=
  if raw.getLast? = some '\n' then raw.dropLast else raw

/-- Whole-file behaviour of `remove_card_reader_quirk` (lines 129-199):
`raw` is the file content that `fread` returns; the result is
`some content` when the file is rewritten with `content`, and `none` when
the file is left untouched (empty read, or quirk not found). -/
def remove_card_reader_quirk (junk : Char) (raw : List Char) : Option (List Char) :=
  if raw = [] then none
  else
    let t := stripNL raw
    match strstr? t CARD_READER_QUIRK with
    | none => none
    | some _ => some (removeEntry junk t CARD_READER_QUIRK)

/-- Entries of a comma-separated configuration string, in order
(semantics of splitting on every comma; an empty string has one empty
entry, like String.splitOn). -/
def splitComma : List Char → List (List Char)
  | [] => [[]]
  | c :: cs =>
    if c = ',' then [] :: splitComma cs
    else
      match splitComma cs with
      | [] => [[c]]
      | e :: es => (c :: e) :: es

example : removeEntry ' ' ("a,b,c".data) ("zzz".data) = "a,b,c".data := by decide
example : splitComma ("a,b,c".data) = ["a".data, "b".data, "c".data] := by decide

/-! ### Basic facts about the editor's building blocks -/

theorem removeEntry_of_none {junk : Char} {t entry : List Char}
    (h : strstr? t entry = none) : removeEntry junk t entry = t := by
  unfold removeEntry; rw [h]

theorem removeEntry_of_some {junk : Char} {t entry : List Char} {i : Nat}
    (h : strstr? t entry = some i) :
    removeEntry junk t entry = removeEntryAt junk t entry i := by
  unfold removeEntry; rw [h]

theorem strstr?_le {t pat : List Char} {i : Nat} (h : strstr? t pat = some i) :
    i ≤ t.length := by
  induction t generalizing i with
  | nil =>
    rw [strstr?] at h
    split at h
    · simp at h; omega
    · exact absurd h (by simp)
  | cons c cs ih =>
    rw [strstr?] at h
    split at h
    · simp at h; omega
    · simp only [Option.map_eq_some'] at h
      obtain ⟨j, hj, rfl⟩ := h
      have := ih hj
      simp [Nat.succ_le_succ this]

theorem strstr?_matches_at {t pat : List Char} {i : Nat} (h : strstr? t pat = some i) :
    pat <+: t.drop i := by
  induction t generalizing i with
  | nil =>
    rw [strstr?] at h
    split at h
    next hp =>
      simp at h
      subst h
      simpa using List.isPrefixOf_iff_prefix.mp hp
    next => exact absurd h (by simp)
  | cons c cs ih =>
    rw [strstr?] at h
    split at h
    next hp =>
      simp at h
      subst h
      simpa using List.isPrefixOf_iff_prefix.mp hp
    next =>
      simp only [Option.map_eq_some'] at h
      obtain ⟨j, hj, rfl⟩ := h
      simpa using ih hj

theorem strstr?_bound {t pat : List Char} {i : Nat} (h : strstr? t pat = some i) :
    i + pat.length ≤ t.length := by
  obtain ⟨s, hs⟩ := strstr?_matches_at h
  have h1 := strstr?_le h
  have h2 := congrArg List.length hs
  simp [List.length_drop] at h2
  omega

theorem strstr?_decomp {t pat : List Char} {i : Nat} (h : strstr? t pat = some i) :
    t = t.take i ++ pat ++ t.drop (i + pat.length) := by
  obtain ⟨s, hs⟩ := strstr?_matches_at h
  have hds : s = t.drop (i + pat.length) := by
    have : (pat ++ s).drop pat.length = (t.drop i).drop pat.length := by rw [hs]
    simpa [List.drop_append, List.drop_drop, Nat.add_comm] using this
  calc t = t.take i ++ t.drop i := (List.take_append_drop i t).symm
    _ = t.take i ++ pat ++ t.drop (i + pat.length) := by rw [← hs, hds]; simp

theorem strstr?_none_of_no_substring {t pat : List Char} (h : ¬ pat <:+: t) :
    strstr? t pat = none := by
  induction t with
  | nil =>
    rw [strstr?]
    split
    next hp => exact absurd (List.isPrefixOf_iff_prefix.mp hp).isInfix h
    next => rfl
  | cons c cs ih =>
    rw [strstr?]
    split
    next hp => exact absurd (List.isPrefixOf_iff_prefix.mp hp).isInfix h
    next =>
      rw [ih (fun hinf => h (hinf.trans (List.suffix_cons c cs).isInfix))]
      rfl

theorem cstring_append {xs ys : List Char} (h : NUL ∉ xs) :
    cstring (xs ++ NUL :: ys) = xs := by
  induction xs with
  | nil => simp [cstring, List.takeWhile]
  | cons a l ih =>
    simp only [List.mem_cons, not_or] at h
    have h2 := ih h.2
    simp only [cstring, ne_eq, decide_not] at h2 ⊢
    rw [List.cons_append, List.takeWhile_cons]
    have ha : ¬ a = NUL := fun hh => h.1 hh.symm
    simp [ha, h2]

/-! ### Computation of the memmove surgery

The edited buffer always has the shape
`junk :: kept-prefix ++ moved-tail ++ [NUL] ++ stale-bytes`, so the
C string the daemon writes back is a take/drop recombination of `t`. -/

theorem memmove_cstring {junk : Char} {t : List Char} (hnul : NUL ∉ t) (p q : Nat)
    (hp : p ≤ t.length) (hq : q ≤ t.length) :
    cstring ((memmove (junk :: (t ++ [NUL])) (1 + p) (1 + q) (t.length + 1 - q)).drop 1)
      = t.take p ++ t.drop q := by
  have h1 : (junk :: (t ++ [NUL])).take (1 + p) = junk :: t.take p := by
    rw [Nat.add_comm, List.take_succ_cons, List.take_append_of_le_length hp]
  have h2 : (junk :: (t ++ [NUL])).drop (1 + q) = t.drop q ++ [NUL] := by
    rw [Nat.add_comm, List.drop_succ_cons, List.drop_append_of_le_length hq]
  have h3 : (t.drop q ++ [NUL]).take (t.length + 1 - q) = t.drop q ++ [NUL] := by
    apply List.take_of_length_le
    simp only [List.length_append, List.length_drop, List.length_singleton]
    omega
  have hmem : NUL ∉ t.take p ++ t.drop q := by
    intro hm
    rcases List.mem_append.mp hm with hm | hm
    · exact hnul (List.take_subset _ _ hm)
    · exact hnul (List.drop_subset _ _ hm)
  unfold memmove
  rw [h1, h2, h3]
  have hshape :
      ((junk :: t.take p) ++ (t.drop q ++ [NUL])
        ++ (junk :: (t ++ [NUL])).drop (1 + p + (t.length + 1 - q))).drop 1
      = (t.take p ++ t.drop q)
        ++ NUL :: (junk :: (t ++ [NUL])).drop (1 + p + (t.length + 1 - q)) := by
    simp [List.append_assoc]
  rw [hshape, cstring_append hmem]

theorem memmove_cstring_zero {junk : Char} {t : List Char} (hnul : NUL ∉ t) (q : Nat)
    (hq : q ≤ t.length) :
    cstring ((memmove (junk :: (t ++ [NUL])) 0 (1 + q) (t.length + 1 - q)).drop 1)
      = if q = t.length then t else t.drop (q + 1) := by
  have h2 : (junk :: (t ++ [NUL])).drop (1 + q) = t.drop q ++ [NUL] := by
    rw [Nat.add_comm, List.drop_succ_cons, List.drop_append_of_le_length hq]
  have h3 : (t.drop q ++ [NUL]).take (t.length + 1 - q) = t.drop q ++ [NUL] := by
    apply List.take_of_length_le
    simp only [List.length_append, List.length_drop, List.length_singleton]
    omega
  unfold memmove
  rw [List.take_zero, h2, h3]
  by_cases hqn : q = t.length
  · subst hqn
    have hlen : t.length + 1 - t.length = 1 := by omega
    simp only [List.drop_length, List.nil_append, Nat.zero_add, hlen,
      List.drop_succ_cons, List.drop_zero, List.singleton_append, List.drop_succ_cons,
      if_pos rfl]
    have : cstring (t ++ NUL :: ([] : List Char)) = t := cstring_append hnul
    simpa using this
  · rw [if_neg hqn]
    have hlen1 : 1 ≤ (t.drop q).length := by
      simp only [List.length_drop]
      omega
    have hmem : NUL ∉ t.drop (q + 1) := fun hm => hnul (List.drop_subset _ _ hm)
    rw [List.nil_append, List.append_assoc, List.drop_append_of_le_length hlen1,
      List.drop_drop]
    rw [List.singleton_append, cstring_append hmem]

/-! ### Closed forms of the edit in each comma configuration -/

theorem getD_buf_before {junk : Char} {t : List Char} {i : Nat} (hi : i ≤ t.length) :
    (junk :: (t ++ [NUL])).getD (1 + i - 1) NUL
      = if i = 0 then junk else t.getD (i - 1) NUL := by
  rcases i with _ | j
  · simp
  · have h1 : 1 + (j + 1) - 1 = j + 1 := by omega
    rw [h1, if_neg (Nat.succ_ne_zero j), List.getD_cons_succ]
    have hj : j < t.length := by omega
    rw [List.getD_append _ _ _ _ hj]
    simp

theorem getD_buf_after {junk : Char} {t : List Char} {i e : Nat} (hie : i + e ≤ t.length) :
    (junk :: (t ++ [NUL])).getD (1 + i + e) NUL
      = if i + e < t.length then t.getD (i + e) NUL else NUL := by
  have h1 : 1 + i + e = (i + e) + 1 := by omega
  rw [h1, List.getD_cons_succ]
  by_cases h : i + e < t.length
  · rw [if_pos h, List.getD_append _ _ _ _ h]
  · have he : i + e = t.length := by omega
    rw [if_neg h, List.getD_append_right _ _ _ _ (by omega), he]
    simp

theorem removeEntryAt_before {junk : Char} {t entry : List Char} {i : Nat}
    (hnul : NUL ∉ t) (hf : strstr? t entry = some i) (hi : i ≠ 0)
    (hc : t.getD (i - 1) NUL = ',') :
    removeEntryAt junk t entry i = t.take (i - 1) ++ t.drop (i + entry.length) := by
  have hb := strstr?_bound hf
  have hcb : (junk :: (t ++ [NUL])).getD (1 + i - 1) NUL = ',' := by
    rw [getD_buf_before (by omega), if_neg hi, hc]
  simp only [removeEntryAt]
  rw [if_pos hcb]
  have e1 : 1 + i - 1 = 1 + (i - 1) := by omega
  have e2 : 1 + i + entry.length = 1 + (i + entry.length) := by omega
  have e3 : t.length + 1 - i - entry.length = t.length + 1 - (i + entry.length) := by
    omega
  rw [e1, e2, e3, memmove_cstring hnul (i - 1) (i + entry.length) (by omega) hb]

theorem removeEntryAt_start_comma {junk : Char} {t entry : List Char}
    (hnul : NUL ∉ t) (hf : strstr? t entry = some 0) (hj : junk = ',') :
    removeEntryAt junk t entry 0
      = if entry.length = t.length then t else t.drop (entry.length + 1) := by
  have hb := strstr?_bound hf
  have hcb : (junk :: (t ++ [NUL])).getD (1 + 0 - 1) NUL = ',' := by
    rw [getD_buf_before (by omega), if_pos rfl, hj]
  simp only [removeEntryAt]
  rw [if_pos hcb]
  have e1 : 1 + 0 - 1 = 0 := by omega
  have e2 : 1 + 0 + entry.length = 1 + entry.length := by omega
  have e3 : t.length + 1 - 0 - entry.length = t.length + 1 - entry.length := by omega
  rw [e1, e2, e3, memmove_cstring_zero hnul entry.length (by omega)]

theorem removeEntryAt_after {junk : Char} {t entry : List Char} {i : Nat}
    (hnul : NUL ∉ t) (hf : strstr? t entry = some i)
    (hnb : ¬ (if i = 0 then junk else t.getD (i - 1) NUL) = ',')
    (hlt : i + entry.length < t.length)
    (hc : t.getD (i + entry.length) NUL = ',') :
    removeEntryAt junk t entry i = t.take i ++ t.drop (i + entry.length + 1) := by
  have hb := strstr?_bound hf
  have hcb : ¬ (junk :: (t ++ [NUL])).getD (1 + i - 1) NUL = ',' := by
    rw [getD_buf_before (by omega)]; exact hnb
  have hca : (junk :: (t ++ [NUL])).getD (1 + i + entry.length) NUL = ',' := by
    rw [getD_buf_after hb, if_pos hlt, hc]
  simp only [removeEntryAt]
  rw [if_neg hcb, if_pos hca]
  have e2 : 1 + i + entry.length + 1 = 1 + (i + entry.length + 1) := by omega
  have e3 : t.length + 1 - i - entry.length - 1
      = t.length + 1 - (i + entry.length + 1) := by omega
  rw [e2, e3, memmove_cstring hnul i (i + entry.length + 1) (by omega) (by omega)]

theorem removeEntryAt_neither {junk : Char} {t entry : List Char} {i : Nat}
    (hnul : NUL ∉ t) (hf : strstr? t entry = some i)
    (hnb : ¬ (if i = 0 then junk else t.getD (i - 1) NUL) = ',')
    (hna : i + entry.length = t.length ∨ ¬ t.getD (i + entry.length) NUL = ',') :
    removeEntryAt junk t entry i = t.take i ++ t.drop (i + entry.length) := by
  have hb := strstr?_bound hf
  have hcb : ¬ (junk :: (t ++ [NUL])).getD (1 + i - 1) NUL = ',' := by
    rw [getD_buf_before (by omega)]; exact hnb
  have hca : ¬ (junk :: (t ++ [NUL])).getD (1 + i + entry.length) NUL = ',' := by
    rw [getD_buf_after hb]
    rcases hna with hna | hna
    · rw [if_neg (by omega)]
      decide
    · by_cases hlt : i + entry.length < t.length
      · rw [if_pos hlt]; exact hna
      · rw [if_neg hlt]; decide
  simp only [removeEntryAt]
  rw [if_neg hcb, if_neg hca]
  have e2 : 1 + i + entry.length = 1 + (i + entry.length) := by omega
  have e3 : t.length + 1 - i - entry.length = t.length + 1 - (i + entry.length) := by
    omega
  rw [e2, e3, memmove_cstring hnul i (i + entry.length) (by omega) hb]

/-! ### Comma-separated entry lists -/

theorem splitComma_ne_nil (l : List Char) : splitComma l ≠ [] := by
  cases l with
  | nil => simp [splitComma]
  | cons c cs =>
    simp only [splitComma]
    by_cases hc : c = ','
    · simp [hc]
    · rw [if_neg hc]
      cases h : splitComma cs <;> simp

theorem splitComma_cons_exists (cs : List Char) :
    ∃ e es, splitComma cs = e :: es := by
  cases h : splitComma cs with
  | nil => exact absurd h (splitComma_ne_nil cs)
  | cons e es => exact ⟨e, es, rfl⟩

theorem splitComma_append (xs ys : List Char) :
    splitComma (xs ++ ',' :: ys) = splitComma xs ++ splitComma ys := by
  induction xs with
  | nil => simp [splitComma]
  | cons c cs ih =>
    by_cases hc : c = ','
    · subst hc
      rw [List.cons_append]
      simp only [splitComma, if_pos rfl, ih]
      simp
    · obtain ⟨e, es, hees⟩ := splitComma_cons_exists cs
      obtain ⟨f, fs, hffs⟩ := splitComma_cons_exists (cs ++ ',' :: ys)
      rw [List.cons_append]
      simp only [splitComma, if_neg hc, hees, hffs]
      have h2 := ih
      rw [hees, hffs] at h2
      simp only [List.cons_append, List.cons.injEq] at h2 ⊢
      simp [h2.1, h2.2]

theorem splitComma_eq_single {xs : List Char} (h : ',' ∉ xs) : splitComma xs = [xs] := by
  induction xs with
  | nil => simp [splitComma]
  | cons c cs ih =>
    simp only [List.mem_cons, not_or] at h
    have h1 : ¬ c = ',' := fun hh => h.1 hh.symm
    simp [splitComma, h1, ih h.2]

/-! ### Structural consequences of the edit -/

theorem take_append_drop_sublist (t : List Char) {a b : Nat} (h : a ≤ b) :
    List.Sublist (t.take a ++ t.drop b) t := by
  have h1 : List.Sublist (t.take a) (t.take b) := by
    have h2 : t.take a = (t.take b).take a := by
      rw [List.take_take, Nat.min_eq_left h]
    rw [h2]
    exact List.take_sublist _ _
  have h3 := List.Sublist.append h1 (List.Sublist.refl (t.drop b))
  rwa [List.take_append_drop] at h3

theorem drop_cons_getD {t : List Char} {m : Nat} (h : m < t.length) :
    t.drop m = t.getD m NUL :: t.drop (m + 1) := by
  rw [List.drop_eq_getElem_cons h, List.getD_eq_getElem _ _ h]

theorem take_snoc_getD {t : List Char} {m : Nat} (h : m < t.length) :
    t.take (m + 1) = t.take m ++ [t.getD m NUL] := by
  rw [List.take_succ, List.getD_eq_getElem _ _ h]
  simp [List.getElem?_eq_getElem h]

theorem removeEntry_sublist {junk : Char} {t entry : List Char} (hnul : NUL ∉ t) :
    List.Sublist (removeEntry junk t entry) t := by
  cases hstr : strstr? t entry with
  | none =>
    rw [removeEntry_of_none hstr]
  | some i =>
    rw [removeEntry_of_some hstr]
    have hb := strstr?_bound hstr
    by_cases hcb : (if i = 0 then junk else t.getD (i - 1) NUL) = ','
    · by_cases hi : i = 0
      · subst hi
        rw [if_pos rfl] at hcb
        rw [removeEntryAt_start_comma hnul hstr hcb]
        by_cases he : entry.length = t.length
        · rw [if_pos he]
        · rw [if_neg he]
          exact List.drop_sublist _ _
      · rw [if_neg hi] at hcb
        rw [removeEntryAt_before hnul hstr hi hcb]
        exact take_append_drop_sublist t (by omega)
    · by_cases hca : i + entry.length < t.length ∧ t.getD (i + entry.length) NUL = ','
      · rw [removeEntryAt_after hnul hstr hcb hca.1 hca.2]
        exact take_append_drop_sublist t (by omega)
      · have hna : i + entry.length = t.length ∨ ¬ t.getD (i + entry.length) NUL = ',' := by
          by_cases hlt : i + entry.length < t.length
          · exact Or.inr (fun hcc => hca ⟨hlt, hcc⟩)
          · exact Or.inl (by omega)
        rw [removeEntryAt_neither hnul hstr hcb hna]
        exact take_append_drop_sublist t (by omega)

/-! ## The claims about the editor -/

/-- C2 (corrected).  For a well-formed comma-delimited text (no empty
entries) and a comma-free entry whose found occurrence is aligned as a
complete entry, the edit removes exactly that entry: the remaining entries
appear unchanged, in order, and (being nonempty) the result has no
leading, trailing, or doubled comma.  Two deviations forced by the code:
the occurrence `strstr` finds is the first substring occurrence (the
alignment hypothesis is about it), and when the entry is the entire text
and the out-of-bounds byte before the buffer (`pos > 0` slip, see C1) is a
comma, the text is returned unchanged instead of emptied. -/
theorem c2_aligned_entry_removal {junk : Char} {t entry : List Char} {i : Nat}
    (hnul : NUL ∉ t) (hwf : ∀ x ∈ splitComma t, x ≠ [])
    (hec : ',' ∉ entry)
    (hf : strstr? t entry = some i)
    (hbefore : i = 0 ∨ t.getD (i - 1) NUL = ',')
    (hafter : i + entry.length = t.length ∨ t.getD (i + entry.length) NUL = ',') :
    ∃ pre post,
      splitComma t = pre ++ entry :: post ∧
      ((removeEntry junk t entry = [] ∧ pre = [] ∧ post = [])
        ∨ splitComma (removeEntry junk t entry) = pre ++ post
        ∨ (junk = ',' ∧ t = entry ∧ removeEntry junk t entry = t)) ∧
      (∀ x ∈ pre, x ≠ []) ∧ (∀ x ∈ post, x ≠ []) := by
  have hb := strstr?_bound hf
  have hdec := strstr?_decomp hf
  have hres := @removeEntry_of_some junk t entry i hf
  rcases hbefore with hi0 | hcb
  · -- the match is at offset 0
    subst hi0
    simp only [Nat.zero_add] at hb hdec hafter
    rw [List.take_zero, List.nil_append] at hdec
    rcases hafter with hend | hcomma
    · -- sole entry: the text is exactly the entry
      have hdnil : t.drop entry.length = [] := List.drop_eq_nil_of_le (by omega)
      have hteq : t = entry := by
        rw [hdnil, List.append_nil] at hdec
        exact hdec
      refine ⟨[], [], ?_, ?_, by simp, by simp⟩
      · rw [hteq, splitComma_eq_single hec]
        simp
      · by_cases hj : junk = ','
        · exact Or.inr (Or.inr ⟨hj, hteq, by
            rw [hres, removeEntryAt_start_comma hnul hf hj, if_pos hend]⟩)
        · refine Or.inl ⟨?_, rfl, rfl⟩
          rw [hres,
            removeEntryAt_neither hnul hf (by rw [if_pos rfl]; exact hj)
              (Or.inl (by omega))]
          simp only [List.take_zero, List.nil_append, Nat.zero_add]
          exact hdnil
    · -- a comma follows the entry
      have hlt : entry.length < t.length := by
        rcases Nat.lt_or_ge entry.length t.length with h | h
        · exact h
        · exfalso
          rw [List.getD_eq_default _ _ (by omega)] at hcomma
          exact absurd hcomma (by decide)
      have hb2 : t.drop entry.length = ',' :: t.drop (entry.length + 1) := by
        rw [drop_cons_getD hlt, hcomma]
      have hsplit : splitComma t
          = entry :: splitComma (t.drop (entry.length + 1)) := by
        calc splitComma t
            = splitComma (entry ++ ',' :: t.drop (entry.length + 1)) := by
              rw [← hb2, ← hdec]
          _ = splitComma entry ++ splitComma (t.drop (entry.length + 1)) :=
              splitComma_append _ _
          _ = entry :: splitComma (t.drop (entry.length + 1)) := by
              rw [splitComma_eq_single hec]
              rfl
      refine ⟨[], splitComma (t.drop (entry.length + 1)), by simpa using hsplit,
        Or.inr (Or.inl ?_), by simp, ?_⟩
      · have hresult : removeEntry junk t entry = t.drop (entry.length + 1) := by
          by_cases hj : junk = ','
          · rw [hres, removeEntryAt_start_comma hnul hf hj, if_neg (by omega)]
          · rw [hres,
              removeEntryAt_after hnul hf (by rw [if_pos rfl]; exact hj)
                (by omega) (by simpa using hcomma)]
            simp
        rw [hresult]
        simp
      · intro x hx
        apply hwf
        rw [hsplit]
        exact List.mem_cons_of_mem _ hx
  · -- a comma-before was seen
    by_cases hi : i = 0
    · -- with the match at offset 0 that comma is the text's first byte,
      -- contradicting well-formedness (the text would start with a comma)
      exfalso
      subst hi
      have h0 : t.getD 0 NUL = ',' := by simpa using hcb
      have htne : t ≠ [] := by
        intro h
        rw [h] at h0
        exact absurd h0 (by decide)
      obtain ⟨c, cs, rfl⟩ := List.exists_cons_of_ne_nil htne
      simp only [List.getD_cons_zero] at h0
      subst h0
      exact hwf [] (by simp [splitComma]) rfl
    · have hi1 : 1 ≤ i := by omega
      have ha : t.take i = t.take (i - 1) ++ [','] := by
        have h2 : i - 1 + 1 = i := by omega
        conv_lhs => rw [← h2]
        rw [take_snoc_getD (by omega), hcb]
      have hdec2 : t = t.take (i - 1) ++ ',' :: (entry ++ t.drop (i + entry.length)) := by
        conv_lhs => rw [hdec]
        rw [ha]
        simp [List.append_assoc]
      rcases hafter with hend | hcomma
      · -- the entry is the last one
        have hbnil : t.drop (i + entry.length) = [] := List.drop_eq_nil_of_le (by omega)
        rw [hbnil, List.append_nil] at hdec2
        have hsplit : splitComma t = splitComma (t.take (i - 1)) ++ [entry] := by
          calc splitComma t = splitComma (t.take (i - 1) ++ ',' :: entry) := by rw [← hdec2]
            _ = splitComma (t.take (i - 1)) ++ splitComma entry := splitComma_append _ _
            _ = splitComma (t.take (i - 1)) ++ [entry] := by rw [splitComma_eq_single hec]
        refine ⟨splitComma (t.take (i - 1)), [], by simpa using hsplit,
          Or.inr (Or.inl ?_), ?_, by simp⟩
        · have hresult : removeEntry junk t entry = t.take (i - 1) := by
            rw [hres, removeEntryAt_before hnul hf hi hcb, hbnil, List.append_nil]
          rw [hresult]
          simp
        · intro x hx
          apply hwf
          rw [hsplit]
          exact List.mem_append_left _ hx
      · -- a comma follows the entry as well
        have hlt : i + entry.length < t.length := by
          rcases Nat.lt_or_ge (i + entry.length) t.length with h | h
          · exact h
          · exfalso
            rw [List.getD_eq_default _ _ (by omega)] at hcomma
            exact absurd hcomma (by decide)
        have hb2 : t.drop (i + entry.length) = ',' :: t.drop (i + entry.length + 1) := by
          rw [drop_cons_getD hlt, hcomma]
        have hsplit : splitComma t
            = splitComma (t.take (i - 1))
              ++ entry :: splitComma (t.drop (i + entry.length + 1)) := by
          calc splitComma t
              = splitComma (t.take (i - 1)
                  ++ ',' :: (entry ++ ',' :: t.drop (i + entry.length + 1))) := by
                rw [← hb2, ← hdec2]
            _ = splitComma (t.take (i - 1))
                  ++ splitComma (entry ++ ',' :: t.drop (i + entry.length + 1)) :=
                splitComma_append _ _
            _ = splitComma (t.take (i - 1))
                  ++ entry :: splitComma (t.drop (i + entry.length + 1)) := by
                rw [splitComma_append, splitComma_eq_single hec]
                rfl
        refine ⟨splitComma (t.take (i - 1)),
          splitComma (t.drop (i + entry.length + 1)), hsplit,
          Or.inr (Or.inl ?_), ?_, ?_⟩
        · have hresult : removeEntry junk t entry
              = t.take (i - 1) ++ ',' :: t.drop (i + entry.length + 1) := by
            rw [hres, removeEntryAt_before hnul hf hi hcb, hb2]
          rw [hresult, splitComma_append]
        · intro x hx
          apply hwf
          rw [hsplit]
          exact List.mem_append_left _ hx
        · intro x hx
          apply hwf
          rw [hsplit]
          exact List.mem_append_right _ (List.mem_cons_of_mem _ hx)

/-- C2, counterexample to the claim as stated.  The entry occurs only as a
substring inside the larger entry "x058f:6366:iy"; the edit chops the match
out of it, so that entry — an entry other than the removed one — does not
survive with its content unchanged. -/
theorem c2_counterexample_substring_match :
    removeEntry ' ' ("a,x058f:6366:iy,b".data) CARD_READER_QUIRK = "a,xy,b".data
    ∧ ("x058f:6366:iy".data) ∈ splitComma ("a,x058f:6366:iy,b".data)
    ∧ ("x058f:6366:iy".data) ≠ CARD_READER_QUIRK
    ∧ ("x058f:6366:iy".data) ∉ splitComma ("a,xy,b".data) := by decide

/-- C2 witness: the aligned-removal theorem applied to the concrete text
"a,058f:6366:i,b" with a non-comma junk byte. -/
theorem c2_aligned_entry_removal_witness :
    ∃ pre post,
      splitComma ("a,058f:6366:i,b".data) = pre ++ CARD_READER_QUIRK :: post ∧
      ((removeEntry ' ' ("a,058f:6366:i,b".data) CARD_READER_QUIRK = []
          ∧ pre = [] ∧ post = [])
        ∨ splitComma (removeEntry ' ' ("a,058f:6366:i,b".data) CARD_READER_QUIRK)
            = pre ++ post
        ∨ (' ' = ',' ∧ "a,058f:6366:i,b".data = CARD_READER_QUIRK
            ∧ removeEntry ' ' ("a,058f:6366:i,b".data) CARD_READER_QUIRK
                = "a,058f:6366:i,b".data)) ∧
      (∀ x ∈ pre, x ≠ []) ∧ (∀ x ∈ post, x ≠ []) :=
  @c2_aligned_entry_removal ' ' ("a,058f:6366:i,b".data) CARD_READER_QUIRK 2
    (by decide) (by decide) (by decide) (by decide) (by decide) (by decide)

/-- C1 (code bug).  The tie-break policy holds when a character precedes
the match, but because line 166 compares the POINTER `pos` with 0
(`pos > 0`, always true) instead of testing `pos > quirks`, a match at
offset 0 reads the out-of-bounds heap byte before the buffer.  When that
byte is a comma and the entry is the sole entry, the text comes back
unchanged instead of empty — against the spec's own test
`removeEntry("058f:6366:i", "058f:6366:i") = ""`.  The spec's example
`removeEntry("058f:6366:i,b", "058f:6366:i") = "b"` does hold for every
junk byte. -/
theorem c1_removal_policy_at_offset_zero :
    removeEntry ',' CARD_READER_QUIRK CARD_READER_QUIRK = CARD_READER_QUIRK
    ∧ removeEntry ' ' CARD_READER_QUIRK CARD_READER_QUIRK = []
    ∧ ∀ junk : Char,
        removeEntry junk ("058f:6366:i,b".data) CARD_READER_QUIRK = "b".data := by
  refine ⟨by decide, by decide, ?_⟩
  intro junk
  by_cases hj : junk = ','
  · subst hj
    decide
  · have hf : strstr? ("058f:6366:i,b".data) CARD_READER_QUIRK = some 0 := by decide
    rw [removeEntry_of_some hf,
      removeEntryAt_after (by decide) hf (by rw [if_pos rfl]; exact hj)
        (by decide) (by decide)]
    decide

/-- C6 (confirmed).  When the entry is not a substring of the text the
editor returns the text unchanged, and at the file level no rewrite is
performed at all: the quirks file is written back only after a successful
edit. -/
theorem c6_not_found_leaves_file_untouched (junk : Char) (t entry raw : List Char)
    (h1 : ¬ entry <:+: t) (h2 : ¬ CARD_READER_QUIRK <:+: stripNL raw) :
    removeEntry junk t entry = t ∧ remove_card_reader_quirk junk raw = none := by
  constructor
  · exact removeEntry_of_none (strstr?_none_of_no_substring h1)
  · unfold remove_card_reader_quirk
    by_cases hr : raw = []
    · rw [if_pos hr]
    · rw [if_neg hr]
      simp only [strstr?_none_of_no_substring h2]

/-- C6 witness at a concrete text, entry and file content. -/
theorem c6_not_found_leaves_file_untouched_witness :
    removeEntry ' ' ("a,b,c".data) ("zzz".data) = "a,b,c".data
    ∧ remove_card_reader_quirk ' ' ("a,b,c".data ++ ['\n']) = none :=
  c6_not_found_leaves_file_untouched ' ' ("a,b,c".data) ("zzz".data)
    ("a,b,c".data ++ ['\n']) (by decide) (by decide)

/-- C9, counterexample to the claim as stated.  A quirks file ending in two
newlines has only the last one stripped; the rewritten content still ends
with a newline, so "the rewritten file never ends with a newline" is
false. -/
theorem c9_counterexample_double_newline :
    remove_card_reader_quirk ' ' ("058f:6366:i,b".data ++ ['\n', '\n'])
      = some ('b' :: ['\n'])
    ∧ ('b' :: ['\n']).getLast? = some '\n' := by decide

/-- C9 (corrected).  When the file content ends with a newline, contains
no other newline, and the quirk is found in the stripped content, the
editor strips that single trailing newline before editing, writes back the
edited stripped content without restoring the newline, and the rewritten
content contains no newline at all. -/
theorem c9_single_newline_stripped (junk : Char) (raw : List Char)
    (hlast : raw.getLast? = some '\n')
    (hnl : '\n' ∉ raw.dropLast) (hnul : NUL ∉ raw.dropLast)
    (hfound : (strstr? raw.dropLast CARD_READER_QUIRK).isSome = true) :
    remove_card_reader_quirk junk raw
      = some (removeEntry junk raw.dropLast CARD_READER_QUIRK)
    ∧ '\n' ∉ removeEntry junk raw.dropLast CARD_READER_QUIRK := by
  have hrne : raw ≠ [] := by
    intro h
    rw [h] at hlast
    simp at hlast
  have hstrip : stripNL raw = raw.dropLast := by rw [stripNL, if_pos hlast]
  obtain ⟨i, hi⟩ : ∃ i, strstr? raw.dropLast CARD_READER_QUIRK = some i := by
    cases h : strstr? raw.dropLast CARD_READER_QUIRK with
    | none =>
      rw [h] at hfound
      simp at hfound
    | some i => exact ⟨i, rfl⟩
  constructor
  · unfold remove_card_reader_quirk
    rw [if_neg hrne]
    simp only [hstrip, hi]
  · intro hmem
    exact hnl ((removeEntry_sublist hnul).subset hmem)

/-- C9 witness on a concrete single-line, newline-terminated file. -/
theorem c9_single_newline_stripped_witness :
    remove_card_reader_quirk 'x' ("a,058f:6366:i".data ++ ['\n'])
      = some (removeEntry 'x' ("a,058f:6366:i".data ++ ['\n']).dropLast
          CARD_READER_QUIRK)
    ∧ '\n' ∉ removeEntry 'x' ("a,058f:6366:i".data ++ ['\n']).dropLast
        CARD_READER_QUIRK :=
  c9_single_newline_stripped 'x' ("a,058f:6366:i".data ++ ['\n'])
    (by decide) (by decide) (by decide) (by decide)

/-! ## The presence sampler (check_card_presence, lines 58-77) -/

/-- Number of presence GPIOs (NUM_PRESENCE_GPIOS). -/
abbrev NUM_PRESENCE_GPIOS : Nat := 4

/-- Model of `check_card_presence`.  The argument is the outcome of
`gpiod_line_get_value_bulk`: `none` when the batch read fails (nonzero
return), `some values` with the `int values[NUM_PRESENCE_GPIOS]` array on
success.  A failed read returns 0; otherwise each nonzero line value sets
bit i of the mask. -/
def check_card_presence (readResult : Option (List Int)) : Nat :=
  match readResult with
  | none => 0
  | some values =>
    (List.range NUM_PRESENCE_GPIOS).foldl
      (fun retval i => if values.getD i 0 ≠ 0 then retval ||| (1 <<< i) else retval) 0

/-! ## The debounce engine (wait_for_card_presence_change, lines 79-127)

Two views of the settling loop (lines 104-123) are embedded.

`settle` is the loop itself over an abstract script of wait outcomes: each
iteration either sees `gpiod_line_event_wait_bulk` return with an event
(`edge s`, after which the events are drained and `check_card_presence`
returns `s`) or time out after 500 ms (`timedOut s`, with `s` the fresh
sample compared against the bouncy candidate).  The hard-failure branch
(result < 0, `exit(5)`) terminates the process and is not part of the
functional model.

`settleTimed` is the same loop composed with a timed event scheduler: the
raw signal is a list of `(time, value)` changes; each change fires one
edge event at its time, sampling returns the value after the most recent
change, and a 500 ms wait that sees no event strictly inside its window
times out.  A change at exactly the expiry instant is a race in the
hardware; the model resolves it as a timeout, matching the spec's reading
that a gap of exactly 500 ms counts as stable. -/

inductive WaitOutcome where
  | edge (sample : Nat)
  | timedOut (sample : Nat)
deriving DecidableEq

/-- The settling loop over a script of wait outcomes, returning the
committed debounced value, or `none` if the script ends mid-settling.
On an edge the candidate is resampled (line 116); on a timeout the fresh
sample is compared with the candidate and committed when equal (line 119);
on a timeout mismatch the loop just continues — the candidate is NOT
updated (lines 117-122 have no assignment in that branch). -/
def settle : Nat → List WaitOutcome → Option Nat
  | _, [] => none
  | _, WaitOutcome.edge s :: rest => settle s rest
  | b, WaitOutcome.timedOut s :: rest => if b = s then some b else settle b rest

/-- Modelled from the spec: the settling loop as §4.2 step 3 words it,
"if it differs, update the candidate and keep waiting" — on a timeout
mismatch the candidate becomes the fresh sample.  Used only to exhibit the
divergence from the code in claim C4. -/
def settleSpec : Nat → List WaitOutcome → Option Nat
  | _, [] => none
  | _, WaitOutcome.edge s :: rest => settleSpec s rest
  | b, WaitOutcome.timedOut s :: rest => if b = s then some b else settleSpec s rest

/-- Outcome of one settling episode under the timed scheduler: the
committed value, the commit time, and the signal changes not yet
consumed. -/
structure SettleResult where
  value : Nat
  time : Nat
  rest : List (Nat × Nat)
deriving DecidableEq

/-- The settling loop under the timed scheduler.  `tc` is the time of the
most recently consumed change, `v` the sampled value after it (the bouncy
candidate), `cs` the pending signal changes in time order.  A change
strictly inside the 500 ms window is consumed as an edge and the wait
restarts; otherwise the wait times out, the unchanged signal matches the
candidate, and `v` is committed at `tc + 500`. -/
def settleTimed (tc v : Nat) : List (Nat × Nat) → SettleResult
  | [] => ⟨v, tc + 500, []⟩
  | (t1, v1) :: cs =>
    if t1 < tc + 500 then settleTimed t1 v1 cs
    else ⟨v, tc + 500, (t1, v1) :: cs⟩

theorem settleTimed_rest_length (tc v : Nat) (cs : List (Nat × Nat)) :
    (settleTimed tc v cs).rest.length ≤ cs.length := by
  induction cs generalizing tc v with
  | nil => simp [settleTimed]
  | cons p cs ih =>
    obtain ⟨t1, v1⟩ := p
    simp only [settleTimed]
    by_cases h : t1 < tc + 500
    · rw [if_pos h]
      exact le_trans (ih t1 v1) (Nat.le_succ _)
    · rw [if_neg h]

/-! ## The main loop (main, lines 220-266)

`main` performs startup reconciliation and then loops forever: each
iteration runs `wait_for_card_presence_change` (one idle wait for the next
edge followed by one settling episode) and writes the authorized state.
The timed environment is the list of signal changes; each loop iteration
consumes the next change as the idle-wait edge and settles from there. -/

/-- Sequence of debounce commits (commit time, committed bitmask) the
forever loop produces on a timed change list. -/
def runCommits : List (Nat × Nat) → List (Nat × Nat)
  | [] => []
  | (t, v) :: rest =>
    let s := settleTimed t v rest
    (s.time, s.value) :: runCommits s.rest
termination_by cs => cs.length
decreasing_by
  simp only [List.length_cons]
  exact Nat.lt_succ_of_le (settleTimed_rest_length _ _ _)

/-- Sequence of authorize writes (write time, value written: `true` is
"1"/connect, `false` is "0"/disconnect) the forever loop issues: one write
per settling episode, `connect_card_reader()` when the committed bitmask
is nonzero, `disconnect_card_reader()` otherwise (lines 261-265). -/
def runWrites : List (Nat × Nat) → List (Nat × Bool)
  | [] => []
  | (t, v) :: rest =>
    let s := settleTimed t v rest
    (s.time, if s.value ≠ 0 then true else false) :: runWrites s.rest
termination_by cs => cs.length
decreasing_by
  simp only [List.length_cons]
  exact Nat.lt_succ_of_le (settleTimed_rest_length _ _ _)

/-- Final value of `debounced_presence_flags` after the loop has consumed
every change, starting from debounced state `d`. -/
def runDebounced (d : Nat) : List (Nat × Nat) → Nat
  | [] => d
  | (t, v) :: rest =>
    let s := settleTimed t v rest
    runDebounced s.value s.rest
termination_by cs => cs.length
decreasing_by
  simp only [List.length_cons]
  exact Nat.lt_succ_of_le (settleTimed_rest_length _ _ _)

/-- Calls `main` makes to the device-lifecycle control surfaces:
`bind` is `bind_card_reader()` (ensureDriverBound), `authorize b` is
`connect_card_reader()` / `disconnect_card_reader()` (setAuthorized). -/
inductive Action where
  | bind
  | authorize (flag : Bool)
deriving DecidableEq

/-- Authorize actions of the forever loop (lines 259-266). -/
def runLoopActions : List (Nat × Nat) → List Action
  | [] => []
  | (t, v) :: rest =>
    let s := settleTimed t v rest
    (if s.value ≠ 0 then Action.authorize true else Action.authorize false)
      :: runLoopActions s.rest
termination_by cs => cs.length
decreasing_by
  simp only [List.length_cons]
  exact Nat.lt_succ_of_le (settleTimed_rest_length _ _ _)

/-- Whole post-quirk-removal behaviour of `main` (lines 246-266): startup
reconciliation from the initial debounced sample (bind then connect when
nonzero, disconnect when zero), then the forever loop. -/
def run (initial : Nat) (changes : List (Nat × Nat)) : List Action :=
  (if initial ≠ 0 then [Action.bind, Action.authorize true]
   else [Action.authorize false]) ++ runLoopActions changes

example : settle 5 [WaitOutcome.timedOut 3, WaitOutcome.timedOut 3] = none := by decide
example : settleTimed 0 1 [(100, 0), (700, 1)]
    = ⟨0, 600, [(700, 1)]⟩ := by decide
example : runWrites [(0, 1), (300, 0), (1500, 2)] = [(800, false), (2000, true)] := by
  simp [runWrites, settleTimed]
example : run 1 [(0, 0)] = [Action.bind, Action.authorize true, Action.authorize false] := by
  rw [run, runLoopActions]
  simp [settleTimed, runLoopActions]

/-! ### Ordering and stability facts about the timed engine -/

/-- Signal changes listed in nondecreasing time order. -/
def timeOrdered (cs : List (Nat × Nat)) : Prop :=
  List.Chain' (fun p q : Nat × Nat => p.1 ≤ q.1) cs

/-- Consecutive signal changes at least 500 ms apart. -/
def spaced500 (cs : List (Nat × Nat)) : Prop :=
  List.Chain' (fun p q : Nat × Nat => p.1 + 500 ≤ q.1) cs

theorem timeOrdered_cons_all {x : Nat × Nat} {cs : List (Nat × Nat)}
    (h : timeOrdered (x :: cs)) :
    (∀ c ∈ cs, x.1 ≤ c.1) ∧ timeOrdered cs := by
  induction cs generalizing x with
  | nil => simp [timeOrdered]
  | cons y ys ih =>
    rw [timeOrdered, List.chain'_cons] at h
    obtain ⟨hxy, hrest⟩ := h
    refine ⟨?_, hrest⟩
    intro c hc
    rcases List.mem_cons.mp hc with rfl | hc
    · exact hxy
    · exact le_trans hxy ((ih hrest).1 c hc)

theorem settleTimed_of_head_ge {tc v : Nat} {cs : List (Nat × Nat)}
    (h : ∀ p ∈ cs.head?, tc + 500 ≤ p.1) :
    settleTimed tc v cs = ⟨v, tc + 500, cs⟩ := by
  cases cs with
  | nil => rfl
  | cons p rest =>
    obtain ⟨t1, v1⟩ := p
    have h1 : tc + 500 ≤ t1 := h (t1, v1) (by simp)
    simp only [settleTimed]
    rw [if_neg (by omega)]

/-- Behaviour of one settling episode on a time-ordered change list whose
times are all at least `tc`: the commit happens at least 500 ms after
`tc`; every change is either left pending or lies at least 500 ms before
the commit; every pending change lies at or after the commit; and the
pending list is still time-ordered. -/
theorem settleTimed_spec {cs : List (Nat × Nat)} (tc v : Nat)
    (hord : timeOrdered cs) (hlb : ∀ c ∈ cs, tc ≤ c.1) :
    tc + 500 ≤ (settleTimed tc v cs).time
    ∧ (∀ c ∈ cs, c ∈ (settleTimed tc v cs).rest
        ∨ c.1 + 500 ≤ (settleTimed tc v cs).time)
    ∧ (∀ c ∈ (settleTimed tc v cs).rest, (settleTimed tc v cs).time ≤ c.1)
    ∧ timeOrdered (settleTimed tc v cs).rest := by
  induction cs generalizing tc v with
  | nil =>
    simp [settleTimed, timeOrdered]
  | cons p cs ih =>
    obtain ⟨t1, v1⟩ := p
    obtain ⟨hall, hord2⟩ := timeOrdered_cons_all hord
    have htc : tc ≤ t1 := hlb (t1, v1) (by simp)
    simp only [settleTimed]
    by_cases h : t1 < tc + 500
    · rw [if_pos h]
      obtain ⟨ih1, ih2, ih3, ih4⟩ := ih t1 v1 hord2 hall
      refine ⟨by omega, ?_, ih3, ih4⟩
      intro c hc
      rcases List.mem_cons.mp hc with rfl | hc
      · exact Or.inr (by simpa using ih1)
      · exact ih2 c hc
    · rw [if_neg h]
      refine ⟨le_refl _, fun c hc => Or.inl hc, ?_, hord⟩
      intro c hc
      rcases List.mem_cons.mp hc with rfl | hc
      · simp only []
        omega
      · have := hall c hc
        simp only []
        omega

/-- Every commit of the forever loop happens at least 500 ms after any
lower bound of the change times. -/
theorem runCommits_time_lb_aux (n : Nat) :
    ∀ cs : List (Nat × Nat), cs.length ≤ n → ∀ b : Nat, timeOrdered cs →
      (∀ c ∈ cs, b ≤ c.1) → ∀ w ∈ runCommits cs, b + 500 ≤ w.1 := by
  induction n with
  | zero =>
    intro cs hlen b _ _ w hw
    rw [List.length_eq_zero.mp (Nat.le_zero.mp hlen)] at hw
    simp [runCommits] at hw
  | succ n ih =>
    intro cs hlen b hord hlb w hw
    cases cs with
    | nil => simp [runCommits] at hw
    | cons p rest =>
      obtain ⟨t, v⟩ := p
      obtain ⟨hall, hord2⟩ := timeOrdered_cons_all hord
      have hbt : b ≤ t := hlb (t, v) (by simp)
      have hspec := settleTimed_spec t v hord2 hall
      rw [runCommits] at hw
      rcases List.mem_cons.mp hw with rfl | hw
      · have := hspec.1
        simp only []
        omega
      · have hlen2 : (settleTimed t v rest).rest.length ≤ n := by
          have := settleTimed_rest_length t v rest
          simp only [List.length_cons] at hlen
          omega
        have := ih (settleTimed t v rest).rest hlen2 (settleTimed t v rest).time
          hspec.2.2.2 hspec.2.2.1 w hw
        have h1 := hspec.1
        omega

/-- No commit of the forever loop happens while the raw signal is inside a
bounce window: every change strictly before a commit is at least 500 ms
before it. -/
theorem runCommits_stable_aux (n : Nat) :
    ∀ cs : List (Nat × Nat), cs.length ≤ n → timeOrdered cs →
      ∀ w ∈ runCommits cs, ∀ c ∈ cs, c.1 < w.1 → c.1 + 500 ≤ w.1 := by
  induction n with
  | zero =>
    intro cs hlen _ w hw
    rw [List.length_eq_zero.mp (Nat.le_zero.mp hlen)] at hw
    simp [runCommits] at hw
  | succ n ih =>
    intro cs hlen hord w hw c hc hcw
    cases cs with
    | nil => simp [runCommits] at hw
    | cons p rest =>
      obtain ⟨t, v⟩ := p
      obtain ⟨hall, hord2⟩ := timeOrdered_cons_all hord
      have hspec := settleTimed_spec t v hord2 hall
      have hlen2 : (settleTimed t v rest).rest.length ≤ n := by
        have := settleTimed_rest_length t v rest
        simp only [List.length_cons] at hlen
        omega
      rw [runCommits] at hw
      rcases List.mem_cons.mp hw with rfl | hw
      · -- the first commit of the list
        rcases List.mem_cons.mp hc with rfl | hc
        · have := hspec.1
          simp only [] at hcw ⊢
          omega
        · rcases hspec.2.1 c hc with hpend | hdone
          · have := hspec.2.2.1 c hpend
            simp only [] at hcw ⊢
            omega
          · simpa using hdone
      · -- a later commit
        have hlater := runCommits_time_lb_aux n (settleTimed t v rest).rest hlen2
          (settleTimed t v rest).time hspec.2.2.2 hspec.2.2.1 w hw
        rcases List.mem_cons.mp hc with rfl | hc
        · have := hspec.1
          simp only []
          omega
        · rcases hspec.2.1 c hc with hpend | hdone
          · exact ih (settleTimed t v rest).rest hlen2 hspec.2.2.2 w hw c hpend hcw
          · omega

/-- The loop's authorize writes are exactly its commits, with the value
collapsed to the committed bitmask being nonzero. -/
theorem runWrites_eq_map (cs : List (Nat × Nat)) :
    runWrites cs = (runCommits cs).map (fun w => (w.1, decide (w.2 ≠ 0))) := by
  induction cs using runWrites.induct with
  | case1 => simp [runWrites, runCommits]
  | case2 t v rest s ih =>
    rw [runWrites, runCommits, List.map_cons, ih]
    by_cases h : (settleTimed t v rest).value = 0 <;> simp [h]

/-- The loop's actions are exactly its commits, mapped to authorize
actions. -/
theorem runLoopActions_eq_map (cs : List (Nat × Nat)) :
    runLoopActions cs
      = (runCommits cs).map (fun w => Action.authorize (decide (w.2 ≠ 0))) := by
  induction cs using runLoopActions.induct with
  | case1 => simp [runLoopActions, runCommits]
  | case2 t v rest s ih =>
    rw [runLoopActions, runCommits, List.map_cons, ih]
    by_cases h : (settleTimed t v rest).value = 0 <;> simp [h]

theorem runDebounced_spaced (d : Nat) (cs : List (Nat × Nat)) (hne : cs ≠ [])
    (hsp : spaced500 cs) : runDebounced d cs = (cs.getLast hne).2 := by
  induction cs generalizing d with
  | nil => exact absurd rfl hne
  | cons p rest ih =>
    obtain ⟨t, v⟩ := p
    have hhead : ∀ c ∈ rest.head?, t + 500 ≤ c.1 := by
      cases rest with
      | nil => simp
      | cons q qs =>
        rw [spaced500, List.chain'_cons] at hsp
        simpa using hsp.1
    rw [runDebounced, settleTimed_of_head_ge hhead]
    dsimp only
    cases rest with
    | nil =>
      rw [runDebounced]
      simp [List.getLast]
    | cons q qs =>
      have hsp2 : spaced500 (q :: qs) := by
        rw [spaced500, List.chain'_cons] at hsp
        exact hsp.2
      rw [ih v (by simp) hsp2]
      simp [List.getLast_cons]

/-! ## The claims about the engine, sampler and main loop -/

/-- C3 (confirmed).  First: on a change sequence whose consecutive changes
are at least 500 ms apart, the engine tracks the signal and the final
debounced state equals the last sample.  Second: on any time-ordered
change sequence, every committed DebouncedState is preceded by a full
500 ms of raw-signal stability — no commit happens inside a bounce
window. -/
theorem c3_debounce_follows_stable_signal :
    (∀ (d : Nat) (changes : List (Nat × Nat)) (hne : changes ≠ []),
        spaced500 changes → runDebounced d changes = (changes.getLast hne).2)
    ∧ (∀ changes : List (Nat × Nat), timeOrdered changes →
        ∀ w ∈ runCommits changes, ∀ c ∈ changes, c.1 < w.1 → c.1 + 500 ≤ w.1) := by
  constructor
  · intro d changes hne hsp
    exact runDebounced_spaced d changes hne hsp
  · intro changes hord w hw c hc hlt
    exact runCommits_stable_aux changes.length changes (le_refl _) hord w hw c hc hlt

/-- C3 witness: a 0 → 1 → 2 signal with 500 ms gaps debounces to 2, and
the single commit of a single change at time 0 is at least 500 ms after
it. -/
theorem c3_debounce_follows_stable_signal_witness :
    runDebounced 0 [(0, 1), (500, 2)] = 2 ∧ (0 : Nat) + 500 ≤ 500 := by
  have h1 := c3_debounce_follows_stable_signal.1 0 [(0, 1), (500, 2)] (by simp)
    (by simp [spaced500])
  have hc : runCommits [(0, 1)] = [(500, 1)] := by
    rw [runCommits]
    simp [settleTimed, runCommits]
  have h2 := c3_debounce_follows_stable_signal.2 [(0, 1)] (by simp [timeOrdered])
    (500, 1) (by rw [hc]; simp) (0, 1) (by simp) (by omega)
  exact ⟨by simpa [List.getLast] using h1, h2⟩

/-- C4, counterexample to the claim as stated.  After a timeout whose
fresh sample 3 differs from the candidate 5, the code's loop still holds
candidate 5, so a second identical timeout sample 3 does not commit
(`settle` returns `none`); under the spec's "update the candidate" reading
(`settleSpec`) it would commit 3. -/
theorem c4_counterexample_stale_candidate :
    settle 5 [WaitOutcome.timedOut 3, WaitOutcome.timedOut 3] = none
    ∧ settleSpec 5 [WaitOutcome.timedOut 3, WaitOutcome.timedOut 3] = some 3 := by
  decide

/-- C4 (corrected).  When a 500 ms wait times out and the fresh sample
differs from the bouncy candidate, the loop keeps waiting with the
candidate UNCHANGED (lines 117-122 assign nothing in that branch); the
candidate is refreshed only when an event arrives before the timeout
(line 116). -/
theorem c4_timeout_mismatch_keeps_candidate :
    (∀ (b s : Nat) (rest : List WaitOutcome), b ≠ s →
        settle b (WaitOutcome.timedOut s :: rest) = settle b rest)
    ∧ (∀ (b s : Nat) (rest : List WaitOutcome),
        settle b (WaitOutcome.edge s :: rest) = settle s rest) := by
  constructor
  · intro b s rest h
    simp [settle, h]
  · intro b s rest
    rfl

/-- C4 witness at concrete candidate, sample and script. -/
theorem c4_timeout_mismatch_keeps_candidate_witness :
    ((5 : Nat) ≠ 3)
    ∧ settle 5 [WaitOutcome.timedOut 3] = settle 5 []
    ∧ settle 7 [WaitOutcome.edge 2] = settle 2 [] :=
  ⟨by decide, c4_timeout_mismatch_keeps_candidate.1 5 3 [] (by decide),
    c4_timeout_mismatch_keeps_candidate.2 7 2 []⟩

/-- C5 (confirmed).  First: a transition to value `v` that stays stable
for at least 500 ms produces exactly one authorize write, 500 ms later,
with value `v ≠ 0` — so 0 → nonzero held stable gives exactly one
authorize("1") and nonzero → 0 held stable exactly one authorize("0").
Second: no authorize write is issued inside a bounce window — every write
is preceded by 500 ms of raw-signal stability. -/
theorem c5_authorize_after_stable_transition :
    (∀ (t v : Nat) (rest : List (Nat × Nat)),
        (∀ p ∈ rest.head?, t + 500 ≤ p.1) →
        runWrites ((t, v) :: rest)
          = (t + 500, decide (v ≠ 0)) :: runWrites rest)
    ∧ (∀ changes : List (Nat × Nat), timeOrdered changes →
        ∀ w ∈ runWrites changes, ∀ c ∈ changes, c.1 < w.1 → c.1 + 500 ≤ w.1) := by
  constructor
  · intro t v rest hh
    rw [runWrites, settleTimed_of_head_ge hh]
    dsimp only
    by_cases h : v = 0 <;> simp [h]
  · intro changes hord w hw c hc hlt
    rw [runWrites_eq_map] at hw
    obtain ⟨w0, hw0, rfl⟩ := List.mem_map.mp hw
    simpa using runCommits_stable_aux changes.length changes (le_refl _) hord
      w0 hw0 c hc (by simpa using hlt)

/-- C5 witness: a card inserted at time 0 and held produces the single
write authorize("1") at time 500, which is at least 500 ms after the
change. -/
theorem c5_authorize_after_stable_transition_witness :
    runWrites [(0, 1)] = [(500, true)] ∧ (0 : Nat) + 500 ≤ 500 := by
  have h1 := c5_authorize_after_stable_transition.1 0 1 [] (by simp)
  have e : runWrites [(0, 1)] = [(500, true)] := by
    rw [h1, runWrites]
    simp
  have h2 := c5_authorize_after_stable_transition.2 [(0, 1)]
    (by simp [timeOrdered]) (500, true) (by rw [e]; simp) (0, 1) (by simp) (by omega)
  exact ⟨e, h2⟩

/-- C7 (confirmed).  At startup, a nonzero initial debounced presence
produces `bind_card_reader()` exactly once followed by authorize(true); a
zero one produces authorize(false) only.  Every later loop action is an
authorize of "committed bitmask nonzero"; `bind` never occurs again. -/
theorem c7_bind_once_at_startup_only (initial : Nat) (changes : List (Nat × Nat)) :
    (initial ≠ 0 → run initial changes
        = Action.bind :: Action.authorize true :: runLoopActions changes)
    ∧ (initial = 0 → run initial changes
        = Action.authorize false :: runLoopActions changes)
    ∧ runLoopActions changes
        = (runCommits changes).map (fun w => Action.authorize (decide (w.2 ≠ 0)))
    ∧ Action.bind ∉ runLoopActions changes := by
  refine ⟨?_, ?_, runLoopActions_eq_map changes, ?_⟩
  · intro h
    rw [run, if_pos h]
    rfl
  · intro h
    rw [run, if_neg (by simp [h])]
    rfl
  · rw [runLoopActions_eq_map]
    intro hmem
    obtain ⟨w, _, habs⟩ := List.mem_map.mp hmem
    exact Action.noConfusion habs

/-- C7 witness at concrete initial presence values. -/
theorem c7_bind_once_at_startup_only_witness :
    run 1 [] = [Action.bind, Action.authorize true]
    ∧ run 0 [] = [Action.authorize false] := by
  have h1 := (c7_bind_once_at_startup_only 1 []).1 (by decide)
  have h0 := (c7_bind_once_at_startup_only 0 []).2.1 rfl
  have hl : runLoopActions ([] : List (Nat × Nat)) = [] := by rw [runLoopActions]
  rw [hl] at h1 h0
  exact ⟨h1, h0⟩

/-- C8 (confirmed).  The sampler fails closed: a failed batch read yields
the all-absent bitmask 0; a successful read yields the bitmask whose bit i
is set exactly when line i read a nonzero (active) value. -/
theorem c8_sampler_fails_closed :
    check_card_presence none = 0
    ∧ ∀ values : List Int, values.length = NUM_PRESENCE_GPIOS →
        ∀ i : Nat, i < NUM_PRESENCE_GPIOS →
          (check_card_presence (some values)).testBit i
            = decide (values.getD i 0 ≠ 0) := by
  constructor
  · rfl
  · intro values hlen i hi
    have hr : List.range NUM_PRESENCE_GPIOS = [0, 1, 2, 3] := by decide
    simp only [check_card_presence, hr, List.foldl]
    interval_cases i <;>
      by_cases h0 : values.getD 0 0 = 0 <;> by_cases h1 : values.getD 1 0 = 0 <;>
      by_cases h2 : values.getD 2 0 = 0 <;> by_cases h3 : values.getD 3 0 = 0 <;>
      (try simp only [ne_eq, h0, h1, h2, h3, if_true, if_false, eq_self_iff_true,
        not_true, not_false_iff, ite_true, ite_false]) <;>
      decide

/-- C8 witness: a concrete read with lines 0 and 2 active. -/
theorem c8_sampler_fails_closed_witness :
    ([(1 : Int), 0, 5, 0].length = NUM_PRESENCE_GPIOS)
    ∧ (check_card_presence (some [(1 : Int), 0, 5, 0])).testBit 2
        = decide (([(1 : Int), 0, 5, 0].getD 2 0) ≠ 0) :=
  ⟨by decide, c8_sampler_fails_closed.2 [(1 : Int), 0, 5, 0] (by decide) 2 (by decide)⟩

/-- C10 (confirmed).  Each settling episode produces exactly one authorize
write whose value depends only on whether the committed bitmask is
nonzero; in particular a bounce 0 → 1 → 0 inside one window, starting from
debounced 0, still produces one (redundant, idempotent) authorize("0")
write. -/
theorem c10_one_write_per_settling_episode :
    (∀ changes : List (Nat × Nat),
        (runWrites changes).length = (runCommits changes).length
        ∧ runWrites changes
            = (runCommits changes).map (fun w => (w.1, decide (w.2 ≠ 0))))
    ∧ runWrites [(100, 1), (200, 0)] = [(700, false)] := by
  constructor
  · intro changes
    refine ⟨?_, runWrites_eq_map changes⟩
    rw [runWrites_eq_map changes, List.length_map]
  · rw [runWrites]
    simp [settleTimed, runWrites]

end CardReaderDaemon
